import Mathlib

/-!
Shallow embedding of the frequency-table compilation engine of the qsv suite
(source: src/cmd/frequency.rs), together with theorems settling the frozen
claims about it.  Byte strings are lists of byte values, u64/usize counters are
Nat, isize flags are Int, and the f64 percentages are modelled by exact
rationals.  Fallible steps (Rust panics, unchecked out-of-bounds reads) are
modelled with Option, none standing for the abort.
-/

namespace Freq

/-- A byte string: the list of byte values (0..255) of a field. -/
abbrev ByteStr := List Nat

/-- Rust u8::is_ascii_whitespace: space, horizontal tab, line feed, form feed,
carriage return (values 32, 9, 10, 12, 13). -/
def isWsByte (b : Nat) : Bool := b == 32 || b == 9 || b == 10 || b == 12 || b == 13

/-- trim_bs_whitespace from frequency.rs: drop leading and trailing ASCII
whitespace bytes, keeping the middle untouched. -/
def trim_bs_whitespace (x : ByteStr) : ByteStr :=
  ((x.dropWhile isWsByte).reverse.dropWhile isWsByte).reverse

/-- Modelled from the spec: util::to_lowercase_into is not under src/; the spec
describes the step as lowercasing the value, modelled here on the ASCII range
(byte values 65..90 map to 97..122, all other bytes unchanged). -/
def lowerByte (b : Nat) : Nat := if 65 ≤ b ∧ b ≤ 90 then b + 32 else b

/-- Bytewise lowercasing of a field value. -/
def lowerBytes (x : ByteStr) : ByteStr := x.map lowerByte

/-- A UTF-8 continuation byte (0x80..0xBF). -/
def isCont (b : Nat) : Bool := 128 ≤ b && b ≤ 191

/-- State of the canonical UTF-8 acceptor: reject sink, start of a character,
or inside a multi-byte sequence expecting one byte in lo..hi followed by k
further standard continuation bytes. -/
inductive Utf8State where
  | reject
  | start
  | cont (lo hi k : Nat)
deriving DecidableEq, Repr

/-- One step of the UTF-8 acceptor (RFC 3629 byte classes: C2..DF lead a
2-byte sequence; E0/E1..EC/ED/EE..EF lead 3-byte sequences with the usual
restrictions on the first continuation; F0/F1..F3/F4 lead 4-byte sequences). -/
def utf8Step (s : Utf8State) (b : Nat) : Utf8State :=
  match s with
  | .reject => .reject
  | .start =>
    if b ≤ 127 then .start
    else if 194 ≤ b ∧ b ≤ 223 then .cont 128 191 0
    else if b = 224 then .cont 160 191 1
    else if 225 ≤ b ∧ b ≤ 236 then .cont 128 191 1
    else if b = 237 then .cont 128 159 1
    else if 238 ≤ b ∧ b ≤ 239 then .cont 128 191 1
    else if b = 240 then .cont 144 191 2
    else if 241 ≤ b ∧ b ≤ 243 then .cont 128 191 2
    else if b = 244 then .cont 128 143 2
    else .reject
  | .cont lo hi k =>
    if lo ≤ b ∧ b ≤ hi then (if k = 0 then .start else .cont 128 191 (k - 1))
    else .reject

/-- UTF-8 validity of a byte list per RFC 3629, modelling the
simdutf8::basic::from_utf8 check used by the process_field closures: the
acceptor consumes every byte and ends at a character boundary. -/
def utf8Valid (l : List Nat) : Bool :=
  decide (l.foldl utf8Step Utf8State.start = Utf8State.start)

/-- Reachability invariant of the UTF-8 acceptor: every continuation
expectation starts at 128 or above. -/
def goodState : Utf8State → Prop
  | .cont lo _ _ => 128 ≤ lo
  | _ => True

/-- The per-field normalization pipeline of Args::ftables (the four process_field
closures selected once from the flags).  The valid-UTF8 branch of the trimming
variants uses str trim, which is outside src/; per spec section 4.1 trimming
removes leading/trailing ASCII whitespace, and on valid UTF-8 a char-level ASCII
whitespace trim coincides with the byte-level trim_bs_whitespace. -/
def process_field (ignoreCase noTrim : Bool) (field : ByteStr) : ByteStr :=
  if ignoreCase then
    if noTrim then
      if utf8Valid field then lowerBytes field else field
    else
      if utf8Valid field then lowerBytes (trim_bs_whitespace field)
      else trim_bs_whitespace field
  else
    if noTrim then field
    else trim_bs_whitespace field

/-- The command-line options consumed by the frequency engine (struct Args of
frequency.rs, restricted to the fields the aggregation and post-processing
pipeline reads). -/
structure Args where
  flag_limit : Int
  flag_unq_limit : Nat
  flag_lmt_threshold : Nat
  flag_pct_dec_places : Int
  flag_other_sorted : Bool
  flag_other_text : String
  flag_asc : Bool
  flag_no_trim : Bool
  flag_no_nulls : Bool
  flag_ignore_case : Bool
  flag_all_unique_text : String
deriving DecidableEq, Repr

/-- UTF-8 encoding of one code point (used to model Rust str::as_bytes). -/
def encodeChar (n : Nat) : List Nat :=
  if n ≤ 127 then [n]
  else if n ≤ 2047 then [192 + n / 64, 128 + n % 64]
  else if n ≤ 65535 then [224 + n / 4096, 128 + n / 64 % 64, 128 + n % 64]
  else [240 + n / 262144, 128 + n / 4096 % 64, 128 + n / 64 % 64, 128 + n % 64]

/-- The UTF-8 bytes of a string (Rust str::as_bytes). -/
def strBytes (s : String) : ByteStr := (s.data.map (fun c => encodeChar c.toNat)).flatten

/-- Helper for humanCount: walking the reversed digit list, insert a comma
before every third digit. -/
def commaRev : List Char → Nat → List Char
  | [], _ => []
  | c :: rest, i => (if i % 3 == 0 && i != 0 then [',', c] else [c]) ++ commaRev rest (i + 1)

/-- indicatif::HumanCount: decimal digits grouped in threes with commas. -/
def humanCount (n : Nat) : String := String.mk ((commaRev (toString n).data.reverse 0).reverse)

/-- NULL_VAL from frequency.rs: the marker substituted for an empty value. -/
def NULL_VAL : ByteStr := strBytes "(NULL)"

/-- A rust_decimal Decimal, modelled as an integer mantissa m at decimal scale
s, denoting m / 10 ^ s. -/
structure Dec where
  m : Int
  s : Nat
deriving DecidableEq, Repr

/-- The rational value denoted by a decimal. -/
def decValue (d : Dec) : ℚ := (d.m : ℚ) / ((10 : ℚ) ^ d.s)

/-- Division of m by f rounding half away from zero
(rust_decimal RoundingStrategy::MidpointAwayFromZero). -/
def roundHalfAway (m : Int) (f : Nat) : Int :=
  let n := m.natAbs
  let q := n / f + (if f ≤ 2 * (n % f) then 1 else 0)
  if m < 0 then -(q : Int) else (q : Int)

/-- Decimal::round_dp_with_strategy at scale t: unchanged when the current scale
is already at most t, otherwise rescaled rounding half away from zero. -/
def Dec.roundDp (d : Dec) (t : Nat) : Dec :=
  if d.s ≤ t then d else ⟨roundHalfAway d.m (10 ^ (d.s - t)), t⟩

/-- Helper for Dec.normalize: strip trailing zero fractional digits. -/
def normAux : Int → Nat → Dec
  | m, 0 => ⟨m, 0⟩
  | m, s + 1 => if m % 10 == 0 then normAux (m / 10) s else ⟨m, s + 1⟩

/-- Decimal::normalize: remove trailing zeros from the fractional part. -/
def Dec.normalize (d : Dec) : Dec := normAux d.m d.s

/-- Length of fract().to_string() for a nonnegative decimal: a zero-scale
decimal has fractional part 0 printed as the single character 0; otherwise the
fractional part prints as 0 followed by the point and exactly s digits. -/
def fractLen (d : Dec) : Nat := if d.s = 0 then 1 else d.s + 2

/-- Args::format_percentage from frequency.rs at the level of the Decimal value:
for a negative flag the first rounding uses the larger of the current scale and
the absolute flag value (hence is the identity), then if the printed fractional
part is longer than the absolute flag value the decimal is re-rounded down to
that many places. -/
def format_percentage (pctDecPlaces : Int) (d : Dec) : Dec :=
  let absDec : Nat := pctDecPlaces.natAbs
  let pctScale : Nat :=
    if pctDecPlaces < 0 then (if absDec < d.s then d.s else absDec) else absDec
  let f := (d.roundDp pctScale).normalize
  if absDec < fractLen f then (f.roundDp absDec).normalize else f

/-- Decimal::to_string for the decimals produced here: mantissa digits with the
decimal point inserted, fractional part padded to exactly s digits. -/
def decToString (d : Dec) : String :=
  if d.s = 0 then toString d.m
  else
    let sign := if d.m < 0 then "-" else ""
    let n := d.m.natAbs
    let ip := n / 10 ^ d.s
    let fp := n % 10 ^ d.s
    let fs := toString fp
    let pad := String.mk (List.replicate (d.s - fs.length) '0')
    sign ++ toString ip ++ "." ++ pad ++ fs

/-- Modelled from the spec: Decimal::from_f64 (rust_decimal, outside src/).  A
finite decimal fraction converts exactly, at the smallest scale making the
mantissa an integer; a non-terminating expansion is cut off at scale 15
(idealizing the 15-17 significant digits surviving the f64 round trip — the
settled claims only rely on this approximation erring by less than half a unit
at the scale being rounded to). -/
def ratToDec (q : ℚ) : Dec :=
  match (List.range 15).find? (fun d => (q * (10 : ℚ) ^ d).den == 1) with
  | some d => ⟨(q * (10 : ℚ) ^ d).num, d⟩
  | none => ⟨Rat.floor (q * (10 : ℚ) ^ 15), 15⟩

/-- The formatted percentage string stored in a ProcessedFrequency. -/
def formatPctStr (a : Args) (q : ℚ) : String :=
  decToString (format_percentage a.flag_pct_dec_places (ratToDec q))

/-- A raw frequency table: the distinct observed values with their counters
(stats::Frequencies as a finite association list). -/
abbrev FTable := List (ByteStr × Nat)

/-- Total number of occurrences recorded in a table (the total_count returned by
par_frequent: the pre-truncation sum over all distinct values). -/
def sumCounts (t : FTable) : Nat := (t.map (·.2)).sum

/-- stats::Frequencies::par_frequent, modelled per spec section 4.2 step 1: sort
the (value, count) pairs by count, ascending under --asc and descending
otherwise; ties are broken arbitrarily (here: stably, by table order). -/
def sortedCounts (asc : Bool) (t : FTable) : List (ByteStr × Nat) :=
  List.insertionSort (fun p q : ByteStr × Nat => if asc then p.2 ≤ q.2 else q.2 ≤ p.2) t

/-- A Processed Frequency Entry before formatting: display value, count and
exact percentage. -/
structure Entry where
  value : ByteStr
  count : Nat
  pct : ℚ
deriving DecidableEq, Repr

/-- The threshold gate of Args::counts: the limiting block runs when
flag_lmt_threshold is 0 or at least the number of distinct values. -/
def gateOpen (a : Args) (uniqueCountsLen : Nat) : Bool :=
  a.flag_lmt_threshold == 0 || uniqueCountsLen ≤ a.flag_lmt_threshold

/-- The body of the limiting block of Args::counts (reached only with the gate
open).  The extreme entry is the last one under --asc and the first one
otherwise; the unique-limit truncation fires for an effectively all-unique
column with a positive limit and a positive unq-limit different from the limit;
a positive limit then also truncates, while a negative limit filters by minimum
occurrence count only when the unique-limit truncation did not fire. -/
def applyLimits (a : Args) (counts : List (ByteStr × Nat)) : List (ByteStr × Nat) :=
  let extreme := if a.flag_asc then counts.getLastD ([], 0) else counts.headD ([], 0)
  let allUnique := extreme.2 == 1
  let absLimit := a.flag_limit.natAbs
  let uniqueLimited := allUnique && decide (0 < a.flag_limit) &&
    (a.flag_unq_limit != absLimit) && decide (0 < a.flag_unq_limit)
  let s1 := if uniqueLimited then counts.take a.flag_unq_limit else counts
  if 0 < a.flag_limit then s1.take absLimit
  else if a.flag_limit < 0 && !uniqueLimited then s1.filter (fun p => absLimit ≤ p.2)
  else s1

/-- The (value, count) pairs retained by Args::counts after sorting and the
(gated) limiting block. -/
def retainedPairs (a : Args) (t : FTable) : List (ByteStr × Nat) :=
  let sorted := sortedCounts a.flag_asc t
  if gateOpen a sorted.length then applyLimits a sorted else sorted

/-- Retained pairs as entries: empty value replaced by NULL_VAL, percentage
count * 100 / total_count (zero factor when the total is zero). -/
def mapEntries (total : Nat) (retained : List (ByteStr × Nat)) : List Entry :=
  let fac : ℚ := if 0 < total then 100 / (total : ℚ) else 0
  retained.map (fun p => ⟨if p.1 = [] then NULL_VAL else p.1, p.2, (p.2 : ℚ) * fac⟩)

/-- The Other-bucket display bytes: the other text, a space, and the number of
distinct excluded values in parentheses (humanized). -/
def otherValue (a : Args) (excluded : Nat) : ByteStr :=
  strBytes a.flag_other_text ++ strBytes " (" ++ strBytes (humanCount excluded) ++ strBytes ")"

/-- The tail of Args::counts: convert retained pairs to entries and append the
synthetic Other entry when occurrences were excluded and the Other text is not
the disable sentinel; its count is the excluded total and its percentage the
residual to 100. -/
def finalize (a : Args) (total uniqueCountsLen : Nat)
    (retained : List (ByteStr × Nat)) : List Entry :=
  let m := mapEntries total retained
  let countSum := (retained.map (·.2)).sum
  let pctSum := (m.map (·.pct)).sum
  let otherCount := total - countSum
  if 0 < otherCount ∧ a.flag_other_text ≠ "<NONE>" then
    m ++ [⟨otherValue a (uniqueCountsLen - m.length), otherCount, 100 - pctSum⟩]
  else m

/-- Args::counts.  none models the panic on an empty counts vector: with no
distinct values the gate is always open (the threshold is trivially at least 0)
and the extreme-entry inspection indexes an empty vector. -/
def countsM (a : Args) (t : FTable) : Option (List Entry) :=
  let sorted := sortedCounts a.flag_asc t
  if gateOpen a sorted.length ∧ sorted.length = 0 then none
  else some (finalize a (sumCounts t) sorted.length (retainedPairs a t))

/-- A Processed Frequency Entry as emitted: display value, count, exact
percentage and the formatted percentage string. -/
structure PEntry where
  value : ByteStr
  count : Nat
  pct : ℚ
  formatted : String
deriving DecidableEq, Repr

/-- Byte-level starts_with. -/
def listStarts (pat l : ByteStr) : Bool := l.take pat.length == pat

/-- Args::process_frequencies: for an all-unique header emit the single
synthetic entry (all-unique text, row count, percentage exactly 100); otherwise
run counts, rotate a leading Other bucket to the end unless --other-sorted, and
format every percentage. -/
def process_frequencies (a : Args) (allUniqueHeader : Bool) (rowCount : Nat)
    (t : FTable) : Option (List PEntry) :=
  if allUniqueHeader then
    some [⟨strBytes a.flag_all_unique_text, rowCount, 100, formatPctStr a 100⟩]
  else do
    let c0 ← countsM a t
    let rot := !a.flag_other_sorted &&
      (match c0.head? with
       | some e => listStarts (strBytes (a.flag_other_text ++ " (")) e.value
       | none => false)
    let c1 := if rot then c0.rotate 1 else c0
    some (c1.map (fun e => ⟨e.value, e.count, e.pct, formatPctStr a e.pct⟩))

/-- The core of Args::get_unique_headers: the positions, in the full header
list, whose cached cardinality equals the dataset row count. -/
def uniqueHeadersOf (cards : List Nat) (rowCount : Nat) : List Nat :=
  (List.range cards.length).filter (fun i => cards.getD i 0 == rowCount)

/-- The all-unique test made by run and by ftables for the column at position
selPos of the selection: membership of that position (not of the original
column index) in the full-header unique set. -/
def colAllUniqueFlag (cards : List Nat) (rowCount selPos : Nat) : Bool :=
  (uniqueHeadersOf cards rowCount).contains selPos

/-- The entries run emits for the column at position selPos of the selection,
whose raw frequency table is t. -/
def runColumn (a : Args) (cards : List Nat) (rowCount selPos : Nat) (t : FTable) :
    Option (List PEntry) :=
  process_frequencies a (colAllUniqueFlag cards rowCount selPos) rowCount t

/-- A parsed CSV record: one byte string per field. -/
abbrev Row := List ByteStr

/-- Selection.select over a record: the fields at the selected positions. -/
def selectRow (nsel : List Nat) (r : Row) : List ByteStr :=
  nsel.map (fun j => r.getD j [])

/-- The sequence of values Args::ftables adds to frequency table i while
consuming the given rows: columns whose selected position is flagged all-unique
are skipped, nonempty fields are normalized by process_field, and empty fields
count as the null marker unless --no-nulls. -/
def addedValues (a : Args) (uniqueVec nsel : List Nat) (rows : List Row) (i : Nat) :
    List ByteStr :=
  (rows.map (fun r =>
    if uniqueVec.contains i then []
    else
      let field := (selectRow nsel r).getD i []
      if field ≠ [] then [process_field a.flag_ignore_case a.flag_no_trim field]
      else if !a.flag_no_nulls then [([] : ByteStr)]
      else [])).flatten

/-- Frequency table i over the given rows, as a value-to-count mapping. -/
def ftabCount (a : Args) (uniqueVec nsel : List Nat) (rows : List Row) (i : Nat)
    (v : ByteStr) : Nat :=
  (addedValues a uniqueVec nsel rows i).count v

/-- Args::get_unique_headers around its stats-cache read.  csvFields and
csvStats come from get_stats_records (util, outside src/), whose read-contract
is modelled from the spec (section 6): it returns empty field names when no
cache exists or the cache schema mismatches the input.  A some [] result is the
non-fatal fallback (no short-circuit); none models the unchecked out-of-bounds
read of col_cardinality_vec while looping over the live headers. -/
def get_unique_headersM (csvFields : List String) (csvStats : List Nat)
    (datasetRowCount headersLen : Nat) : Option (List Nat) :=
  if csvFields.isEmpty || csvStats.length != csvFields.length then some []
  else if headersLen ≤ csvStats.length then
    some ((List.range headersLen).filter (fun i => csvStats.getD i 0 == datasetRowCount))
  else none

/-! Concrete option sets and tables used to instantiate the theorems. -/

/-- The documented default option values of the frequency command: limit 10,
unq-limit 10, threshold 0, pct-dec-places -5, other text Other, descending
order, trimming on, nulls counted, case-sensitive. -/
def defaultArgs : Args :=
  ⟨10, 10, 0, -5, false, "Other", false, false, false, false, "<ALL_UNIQUE>"⟩

/-- Defaults with --limit -10 and --lmt-threshold 1. -/
def thresholdArgs : Args := { defaultArgs with flag_limit := -10, flag_lmt_threshold := 1 }

/-- Defaults with --limit 2 and --unq-limit 4. -/
def unqLimitArgs : Args := { defaultArgs with flag_limit := 2, flag_unq_limit := 4 }

/-- Defaults with --limit 3, --other-text set to the disable sentinel and
--pct-dec-places 0. -/
def noneTextArgs : Args :=
  { defaultArgs with flag_limit := 3, flag_other_text := "<NONE>", flag_pct_dec_places := 0 }

/-- Defaults with --limit 1. -/
def limitOneArgs : Args := { defaultArgs with flag_limit := 1 }

/-- Defaults with --no-nulls. -/
def noNullsArgs : Args := { defaultArgs with flag_no_nulls := true }

/-- A table with two distinct singleton values (bytes x and y). -/
def tblTwoSingles : FTable := [([120], 1), ([121], 1)]

/-- A table with a single distinct value occurring five times. -/
def tblOne5 : FTable := [([97], 5)]

/-- A table with five distinct singleton values. -/
def tblSingles5 : FTable :=
  [([97], 1), ([98], 1), ([99], 1), ([100], 1), ([101], 1)]

/-- A table with thirteen distinct singleton values. -/
def tblSingles13 : FTable :=
  [([97], 1), ([98], 1), ([99], 1), ([100], 1), ([101], 1), ([102], 1), ([103], 1),
   ([104], 1), ([105], 1), ([106], 1), ([107], 1), ([108], 1), ([109], 1)]

/-- A table with two distinct values of counts 1 and 2. -/
def tblMixed : FTable := [([97], 1), ([98], 2)]

/-! Theorems. -/

/-- C10: Args::counts is only safe on a nonempty counts vector: for every option
combination, on a table with zero distinct values the threshold gate is
satisfied (a usize threshold is trivially at least 0), and the extreme-entry
inspection indexes position 0 of an empty vector (or computes
unique_counts_len - 1 at 0), so the operation panics (modelled by none) instead
of returning an empty entry sequence.  Such a table is reachable: with
--no-nulls a selected column all of whose fields are empty adds no value at
all. -/
theorem counts_empty_table_panics :
    (∀ a : Args, countsM a [] = none) ∧
    (∀ a : Args, a.flag_no_nulls = true → ∀ (nsel : List Nat) (rows : List Row) (i : Nat),
      (∀ r ∈ rows, (selectRow nsel r).getD i [] = ([] : ByteStr)) →
      addedValues a [] nsel rows i = []) := by
  constructor
  · intro a
    simp [countsM, sortedCounts, gateOpen, List.insertionSort]
  · intro a hnn nsel rows i hf
    simp only [addedValues, List.flatten_eq_nil_iff]
    intro l hl
    rw [List.mem_map] at hl
    obtain ⟨r, hr, hlr⟩ := hl
    rw [← hlr]
    have hfr := hf r hr
    rw [List.getD_eq_getElem?_getD] at hfr
    simp [hfr, hnn]

/-- Witness for C10: two rows whose selected field is empty produce, under
--no-nulls, a table with zero distinct values. -/
theorem counts_empty_table_panics_witness :
    countsM defaultArgs [] = none ∧
    addedValues noNullsArgs [] [0] [[[]], [[]]] 0 = [] :=
  ⟨counts_empty_table_panics.1 defaultArgs,
   counts_empty_table_panics.2 noNullsArgs (by decide) [0] [[[]], [[]]] 0 (by decide)⟩

/-- C8: under the stats-cache read contract (spec section 6: the reader returns
an empty field list when no cache exists or the cache schema mismatches the
input), a cache whose field count differs from the live header count is not
fatal: get_unique_headers returns an empty Unique-Column Set (so no all-unique
short-circuit is taken) and makes no out-of-bounds cardinality read. -/
theorem cache_mismatch_is_nonfatal (csvFields : List String) (csvStats : List Nat)
    (rc hlen : Nat) (hcon : csvFields ≠ [] → csvFields.length = hlen)
    (hmis : csvFields.length ≠ hlen) :
    get_unique_headersM csvFields csvStats rc hlen = some [] := by
  cases csvFields with
  | nil => simp [get_unique_headersM]
  | cons f fs => exact absurd (hcon (by simp)) hmis

/-- Witness for C8: a cache read yielding no field names against three live
headers falls back to an empty Unique-Column Set. -/
theorem cache_mismatch_is_nonfatal_witness :
    get_unique_headersM [] [1, 2] 7 3 = some [] :=
  cache_mismatch_is_nonfatal [] [1, 2] 7 3 (fun h => absurd rfl h) (by decide)

/-- The values added to a frequency table over concatenated row ranges are the
concatenation of the values added over each range. -/
theorem addedValues_append (a : Args) (u nsel : List Nat) (r1 r2 : List Row) (i : Nat) :
    addedValues a u nsel (r1 ++ r2) i =
      addedValues a u nsel r1 i ++ addedValues a u nsel r2 i := by
  simp [addedValues]

/-- C2: for every option set, unique-column flags, selection, every partition of
the rows into contiguous chunks, every column and every value, the count
obtained by merging the per-chunk frequency tables (summing counters for
identical values, as merge_all does) equals the count of the sequential
single-pass table over all rows. -/
theorem parallel_merge_eq_sequential (a : Args) (uniqueVec nsel : List Nat)
    (chunks : List (List Row)) (i : Nat) (v : ByteStr) :
    ftabCount a uniqueVec nsel chunks.flatten i v =
      (chunks.map (fun c => ftabCount a uniqueVec nsel c i v)).sum := by
  induction chunks with
  | nil => rfl
  | cons c cs ih =>
    simp only [List.flatten_cons, List.map_cons, List.sum_cons, ftabCount] at *
    rw [addedValues_append, List.count_append, ih]

/-- The sorted counts vector has one pair per distinct value. -/
theorem length_sortedCounts (asc : Bool) (t : FTable) :
    (sortedCounts asc t).length = t.length :=
  List.length_insertionSort _ _

/-- Sorting preserves the total occurrence count. -/
theorem sum_sortedCounts (asc : Bool) (t : FTable) :
    ((sortedCounts asc t).map (·.2)).sum = sumCounts t :=
  ((List.perm_insertionSort _ t).map _).sum_eq

/-- The limiting block only ever removes pairs. -/
theorem applyLimits_sublist (a : Args) (s : List (ByteStr × Nat)) :
    (applyLimits a s).Sublist s := by
  have hs1 : ∀ b : Bool,
      (if b = true then List.take a.flag_unq_limit s else s).Sublist s := by
    intro b
    split
    · exact List.take_sublist _ _
    · exact List.Sublist.refl _
  have hs2 : ∀ (c : Bool) (l : List (ByteStr × Nat)), l.Sublist s →
      (if c = true then l.filter (fun p => a.flag_limit.natAbs ≤ p.2) else l).Sublist s := by
    intro c l hl
    split
    · exact (List.filter_sublist _).trans hl
    · exact hl
  simp only [applyLimits]
  split
  · exact (List.take_sublist _ _).trans (hs1 _)
  · exact hs2 _ _ (hs1 _)

/-- The retained pairs form a sublist of the sorted counts vector. -/
theorem retainedPairs_sublist (a : Args) (t : FTable) :
    (retainedPairs a t).Sublist (sortedCounts a.flag_asc t) := by
  simp only [retainedPairs]
  split
  · exact applyLimits_sublist _ _
  · exact List.Sublist.refl _

/-- The retained occurrence counts never exceed the table total. -/
theorem retained_sum_le (a : Args) (t : FTable) :
    ((retainedPairs a t).map (·.2)).sum ≤ sumCounts t := by
  have h := ((retainedPairs_sublist a t).map (·.2)).sum_le_sum (fun c _ => Nat.zero_le c)
  rwa [sum_sortedCounts] at h

/-- countsM with the gate open and a nonempty table runs the limiting block. -/
theorem countsM_gate_open (a : Args) (t : FTable)
    (hg : gateOpen a t.length = true) (hne : t ≠ []) :
    countsM a t = some (finalize a (sumCounts t) t.length
      (applyLimits a (sortedCounts a.flag_asc t))) := by
  have hlen : (sortedCounts a.flag_asc t).length = t.length := length_sortedCounts _ _
  have hne' : t.length ≠ 0 := fun h => hne (List.length_eq_zero.mp h)
  simp only [countsM, retainedPairs, hlen, hg, if_true]
  simp [hne']

/-- countsM with the gate closed skips the limiting block entirely. -/
theorem countsM_gate_closed (a : Args) (t : FTable)
    (hg : gateOpen a t.length = false) :
    countsM a t = some (finalize a (sumCounts t) t.length (sortedCounts a.flag_asc t)) := by
  have hlen : (sortedCounts a.flag_asc t).length = t.length := length_sortedCounts _ _
  simp only [countsM, retainedPairs, hlen, hg]
  simp

/-- C4 counterexample: with --lmt-threshold 1 and --limit -10 on a column with
exactly one distinct value (count 5), the distinct count equals the threshold;
the claim says limiting must not apply (so the value is retained untruncated),
but the code applies the negative-limit filter, drops the sole value, and emits
only the synthetic Other bucket. -/
theorem threshold_boundary_counterexample :
    ((countsM thresholdArgs tblOne5).getD []).map Entry.value =
      [otherValue thresholdArgs 1] ∧
    ((countsM thresholdArgs tblOne5).getD []).map Entry.count = [5] := by
  exact ⟨by decide, by decide⟩

/-- C4 amended: the limiting policy is applied iff lmt-threshold is 0 or the
distinct-value count is at most (not strictly below) the threshold; when a
nonzero threshold is strictly below the distinct count, every distinct value is
retained untruncated and no Other bucket appears. -/
theorem threshold_gate_amended (a : Args) (t : FTable) :
    (a.flag_lmt_threshold ≠ 0 → a.flag_lmt_threshold < t.length →
      ∃ l, countsM a t = some l ∧ l.length = t.length ∧
        ∀ p ∈ t, (if p.1 = ([] : ByteStr) then NULL_VAL else p.1) ∈ l.map Entry.value) ∧
    ((a.flag_lmt_threshold = 0 ∨ t.length ≤ a.flag_lmt_threshold) → t ≠ [] →
      countsM a t = some (finalize a (sumCounts t) t.length
        (applyLimits a (sortedCounts a.flag_asc t)))) := by
  constructor
  · intro h0 hlt
    have hg : gateOpen a t.length = false := by
      simp only [gateOpen, Bool.or_eq_false_iff, beq_eq_false_iff_ne, ne_eq,
        decide_eq_false_iff_not, not_le]
      exact ⟨h0, hlt⟩
    have hsum : ((sortedCounts a.flag_asc t).map (·.2)).sum = sumCounts t :=
      sum_sortedCounts _ _
    refine ⟨finalize a (sumCounts t) t.length (sortedCounts a.flag_asc t),
      countsM_gate_closed a t hg, ?_, ?_⟩
    · simp [finalize, hsum, mapEntries, length_sortedCounts]
    · intro p hp
      have hmem : p ∈ sortedCounts a.flag_asc t := (List.mem_insertionSort _).mpr hp
      simp only [finalize, hsum, Nat.sub_self, lt_irrefl, false_and, if_false,
        mapEntries]
      simp only [List.map_map]
      exact List.mem_map_of_mem _ hmem
  · intro hg hne
    refine countsM_gate_open a t ?_ hne
    simp only [gateOpen, Bool.or_eq_true, beq_iff_eq, decide_eq_true_eq]
    exact hg.imp id id

/-- Witness for C4 amended: with threshold 1 below the distinct count 2 every
value is retained; with the default threshold 0 the limiting block runs. -/
theorem threshold_gate_amended_witness :
    (∃ l, countsM thresholdArgs tblMixed = some l ∧ l.length = tblMixed.length ∧
      ∀ p ∈ tblMixed, (if p.1 = ([] : ByteStr) then NULL_VAL else p.1) ∈
        l.map Entry.value) ∧
    countsM defaultArgs tblTwoSingles = some (finalize defaultArgs
      (sumCounts tblTwoSingles) tblTwoSingles.length
      (applyLimits defaultArgs (sortedCounts defaultArgs.flag_asc tblTwoSingles))) :=
  ⟨(threshold_gate_amended thresholdArgs tblMixed).1 (by decide) (by decide),
   (threshold_gate_amended defaultArgs tblTwoSingles).2 (Or.inl rfl) (by decide)⟩

/-- C5 counterexample: five all-unique singleton values with --limit 2 and
--unq-limit 4: the claim says the list is truncated to exactly 4 entries with
no further limit truncation, but the code truncates to 4 and then again to 2,
leaving two value entries plus the Other bucket for the three excluded values. -/
theorem unique_limit_counterexample :
    ((countsM unqLimitArgs tblSingles5).getD []).map Entry.count = [1, 1, 3] ∧
    ((countsM unqLimitArgs tblSingles5).getD []).map Entry.value =
      [[97], [98], otherValue unqLimitArgs 3] := by
  exact ⟨by decide, by decide⟩

/-- C5 amended: when the limiting block runs on an effectively all-unique
column (extreme entry count 1) with a positive limit and a positive unq-limit
different from it, the unique-limit truncation fires and the positive-limit
truncation is additionally applied, so the retained count is
min(limit, min(unq-limit, distinct count)), not unq-limit; the unique-limit
path is mutually exclusive only with the negative-limit filter. -/
theorem unique_limit_amended (a : Args) (t : FTable)
    (hall : (if a.flag_asc then (sortedCounts a.flag_asc t).getLastD ([], 0)
             else (sortedCounts a.flag_asc t).headD ([], 0)).2 = 1)
    (hlim : 0 < a.flag_limit) (hunq : 0 < a.flag_unq_limit)
    (hne : a.flag_unq_limit ≠ a.flag_limit.natAbs) :
    applyLimits a (sortedCounts a.flag_asc t) =
      ((sortedCounts a.flag_asc t).take a.flag_unq_limit).take a.flag_limit.natAbs ∧
    (applyLimits a (sortedCounts a.flag_asc t)).length =
      min a.flag_limit.natAbs (min a.flag_unq_limit t.length) ∧
    ((a.flag_lmt_threshold = 0 ∨ t.length ≤ a.flag_lmt_threshold) → t ≠ [] →
      countsM a t = some (finalize a (sumCounts t) t.length
        (applyLimits a (sortedCounts a.flag_asc t)))) := by
  have h1 : applyLimits a (sortedCounts a.flag_asc t) =
      ((sortedCounts a.flag_asc t).take a.flag_unq_limit).take a.flag_limit.natAbs := by
    have hu : ((if a.flag_asc then (sortedCounts a.flag_asc t).getLastD ([], 0)
        else (sortedCounts a.flag_asc t).headD ([], 0)).2 == 1 &&
        decide (0 < a.flag_limit) && (a.flag_unq_limit != a.flag_limit.natAbs) &&
        decide (0 < a.flag_unq_limit)) = true := by
      have hall' := hall
      simp only [List.getLastD_eq_getLast?, List.headD_eq_head?] at hall'
      simp [hall', hlim, hunq, hne]
    simp only [applyLimits, hu]
    simp [hlim]
  refine ⟨h1, ?_, ?_⟩
  · rw [h1]
    simp [List.length_take, length_sortedCounts, Nat.min_assoc]
  · intro hg hne'
    refine countsM_gate_open a t ?_ hne'
    simp only [gateOpen, Bool.or_eq_true, beq_iff_eq, decide_eq_true_eq]
    exact hg.imp id id

/-- Witness for C5 amended: the situation of the counterexample input, where
min(2, min(4, 5)) = 2 entries are retained. -/
theorem unique_limit_amended_witness :
    applyLimits unqLimitArgs (sortedCounts unqLimitArgs.flag_asc tblSingles5) =
      ((sortedCounts unqLimitArgs.flag_asc tblSingles5).take
        unqLimitArgs.flag_unq_limit).take unqLimitArgs.flag_limit.natAbs ∧
    (applyLimits unqLimitArgs (sortedCounts unqLimitArgs.flag_asc tblSingles5)).length =
      min unqLimitArgs.flag_limit.natAbs
        (min unqLimitArgs.flag_unq_limit tblSingles5.length) ∧
    ((unqLimitArgs.flag_lmt_threshold = 0 ∨
        tblSingles5.length ≤ unqLimitArgs.flag_lmt_threshold) → tblSingles5 ≠ [] →
      countsM unqLimitArgs tblSingles5 = some (finalize unqLimitArgs
        (sumCounts tblSingles5) tblSingles5.length
        (applyLimits unqLimitArgs (sortedCounts unqLimitArgs.flag_asc tblSingles5)))) :=
  unique_limit_amended unqLimitArgs tblSingles5 (by decide) (by decide) (by decide)
    (by decide)

/-- On a nonempty table, countsM always reaches the finalize step on the
retained pairs. -/
theorem countsM_eq_finalize (a : Args) (t : FTable) (hne : t ≠ []) :
    countsM a t = some (finalize a (sumCounts t) t.length (retainedPairs a t)) := by
  by_cases hg : gateOpen a t.length = true
  · rw [countsM_gate_open a t hg hne]
    simp only [retainedPairs, length_sortedCounts, hg, if_true]
  · have hg' : gateOpen a t.length = false := by
      revert hg
      cases gateOpen a t.length <;> simp
    rw [countsM_gate_closed a t hg']
    simp only [retainedPairs, length_sortedCounts, hg']
    simp

/-- C1 counterexample: cached cardinalities [1, 2], row count 2, selection [1].
The selected column (original index 1) has cardinality equal to the row count,
but the engine tests its position within the selection (0) against the unique
set computed over full-header indices ([1]) and misses, emitting two regular
entries instead of the single all-unique entry. -/
theorem all_unique_selection_counterexample :
    [1, 2].getD ([1].getD 0 0) 0 = 2 ∧
    uniqueHeadersOf [1, 2] 2 = [1] ∧
    colAllUniqueFlag [1, 2] 2 0 = false ∧
    ((runColumn defaultArgs [1, 2] 2 0 tblTwoSingles).getD []).length = 2 :=
  ⟨by decide, by decide, by decide, by decide⟩

/-- C1 amended: for every selected column whose position within the selection
coincides with its original header index (in particular every column under the
default whole-table selection) and whose cached cardinality equals the row
count, the command emits exactly one entry carrying the all-unique text, the
row count and percentage exactly 100, regardless of the limit, unq-limit and
lmt-threshold settings and of the table contents. -/
theorem all_unique_entry_amended (a : Args) (cards : List Nat) (rowCount : Nat)
    (sel : List Nat) (j : Nat) (t : FTable)
    (hj : j < cards.length) (hsel : sel.getD j 0 = j)
    (hcard : cards.getD (sel.getD j 0) 0 = rowCount) :
    runColumn a cards rowCount j t =
      some [⟨strBytes a.flag_all_unique_text, rowCount, 100, formatPctStr a 100⟩] := by
  have hflag : colAllUniqueFlag cards rowCount j = true := by
    have hmem : j ∈ uniqueHeadersOf cards rowCount := by
      unfold uniqueHeadersOf
      rw [List.mem_filter]
      refine ⟨List.mem_range.mpr hj, ?_⟩
      rw [hsel] at hcard
      show (cards.getD j 0 == rowCount) = true
      exact beq_iff_eq.mpr hcard
    exact List.elem_eq_true_of_mem hmem
  simp [runColumn, hflag, process_frequencies]

/-- Witness for C1 amended: one all-unique column, identity selection. -/
theorem all_unique_entry_amended_witness :
    runColumn defaultArgs [5] 5 0 [] =
      some [⟨strBytes defaultArgs.flag_all_unique_text, 5, 100,
        formatPctStr defaultArgs 100⟩] :=
  all_unique_entry_amended defaultArgs [5] 5 [0] 0 [] (by decide) (by decide) (by decide)

/-- C6: whenever truncation excluded at least one occurrence and the Other text
is not the disable sentinel, exactly one synthetic entry is appended after the
retained entries: its display bytes are the other text followed by the
parenthesized (humanized) number of distinct values excluded by truncation, its
count is the total count minus the sum of retained counts, and its percentage
is the residual 100 minus the sum of the retained percentages. -/
theorem other_bucket_shape (a : Args) (t : FTable) (hne : t ≠ [])
    (hother : a.flag_other_text ≠ "<NONE>")
    (hexcl : ((retainedPairs a t).map (·.2)).sum < sumCounts t) :
    countsM a t = some (mapEntries (sumCounts t) (retainedPairs a t) ++
      [⟨otherValue a (t.length - (retainedPairs a t).length),
        sumCounts t - ((retainedPairs a t).map (·.2)).sum,
        100 - ((mapEntries (sumCounts t) (retainedPairs a t)).map Entry.pct).sum⟩]) ∧
    sumCounts t - ((retainedPairs a t).map (·.2)).sum +
      ((retainedPairs a t).map (·.2)).sum = sumCounts t ∧
    (retainedPairs a t).length ≤ t.length := by
  have hlenm : (mapEntries (sumCounts t) (retainedPairs a t)).length =
      (retainedPairs a t).length := by simp [mapEntries]
  refine ⟨?_, ?_, ?_⟩
  · rw [countsM_eq_finalize a t hne]
    simp only [finalize]
    rw [if_pos ⟨Nat.sub_pos_of_lt hexcl, hother⟩, hlenm]
  · omega
  · have h := (retainedPairs_sublist a t).length_le
    rwa [length_sortedCounts] at h

/-- Witness for C6: with --limit 1 on two singleton values, one value and one
occurrence are excluded and the Other bucket carries them. -/
theorem other_bucket_shape_witness :
    countsM limitOneArgs tblTwoSingles =
      some (mapEntries (sumCounts tblTwoSingles) (retainedPairs limitOneArgs tblTwoSingles) ++
        [⟨otherValue limitOneArgs
            (tblTwoSingles.length - (retainedPairs limitOneArgs tblTwoSingles).length),
          sumCounts tblTwoSingles -
            ((retainedPairs limitOneArgs tblTwoSingles).map (·.2)).sum,
          100 - ((mapEntries (sumCounts tblTwoSingles)
            (retainedPairs limitOneArgs tblTwoSingles)).map Entry.pct).sum⟩]) ∧
    sumCounts tblTwoSingles -
        ((retainedPairs limitOneArgs tblTwoSingles).map (·.2)).sum +
      ((retainedPairs limitOneArgs tblTwoSingles).map (·.2)).sum =
        sumCounts tblTwoSingles ∧
    (retainedPairs limitOneArgs tblTwoSingles).length ≤ tblTwoSingles.length :=
  other_bucket_shape limitOneArgs tblTwoSingles (by decide) (by decide) (by decide)

/-- The entry counts are exactly the retained pair counts. -/
theorem mapEntries_counts (total : Nat) (R : List (ByteStr × Nat)) :
    (mapEntries total R).map Entry.count = R.map (·.2) := by
  simp [mapEntries, List.map_map]

/-- The entry percentage sum is the retained count sum times the common factor. -/
theorem mapEntries_pct_sum (total : Nat) (R : List (ByteStr × Nat)) :
    ((mapEntries total R).map Entry.pct).sum =
      ((((R.map (·.2)).sum : ℕ)) : ℚ) * (if 0 < total then 100 / (total : ℚ) else 0) := by
  simp only [mapEntries, List.map_map]
  rw [Nat.cast_list_sum, List.map_map, ← List.sum_map_mul_right]
  rfl

/-- C3 counterexample: thirteen singleton values with --limit 3,
--other-text <NONE> and --pct-dec-places 0.  Three entries of count 1 are
retained (counts sum 3, not 13, since the Other bucket is suppressed), each
with exact percentage 100/13, which formats to 8; the three formatted
percentages sum to 24, nowhere near 100. -/
theorem percentage_closure_counterexample :
    sumCounts tblSingles13 = 13 ∧
    ((countsM noneTextArgs tblSingles13).getD []).map Entry.count = [1, 1, 1] ∧
    ((countsM noneTextArgs tblSingles13).getD []).map Entry.pct =
      [100 / 13, 100 / 13, 100 / 13] ∧
    formatPctStr noneTextArgs (100 / 13) = "8" := by
  refine ⟨by decide, by decide, ?_, ?_⟩
  · simp +decide [countsM, noneTextArgs, defaultArgs, tblSingles13, sortedCounts,
      gateOpen, finalize, retainedPairs, applyLimits, mapEntries, sumCounts,
      List.insertionSort, List.orderedInsert]
  · have hd : ratToDec (100 / 13) = ⟨7692307692307692, 15⟩ := by
      have hnone : (List.range 15).find?
          (fun d => ((100 / 13 : ℚ) * (10 : ℚ) ^ d).den == 1) = none := by
        rw [List.find?_eq_none]
        intro d hdm
        fin_cases hdm <;> norm_num
      simp only [ratToDec, hnone]
      norm_num [Rat.floor_def']
    show decToString (format_percentage noneTextArgs.flag_pct_dec_places
      (ratToDec (100 / 13))) = "8"
    rw [hd]
    decide

/-- C3 amended: for every regular column with a nonempty table of positive
counters, when the Other text is not the disable sentinel the final entries
(including any Other bucket) have counts summing exactly to the table total and
exact percentages summing exactly to 100; no bound of the kind claimed holds
for the rounded (formatted) percentages, per the counterexample. -/
theorem percentage_closure_amended (a : Args) (t : FTable) (hne : t ≠ [])
    (hpos : ∀ p ∈ t, 0 < p.2) (hother : a.flag_other_text ≠ "<NONE>") :
    ∃ l, countsM a t = some l ∧ (l.map Entry.count).sum = sumCounts t ∧
      (l.map Entry.pct).sum = 100 := by
  have htot : 0 < sumCounts t := by
    cases t with
    | nil => exact absurd rfl hne
    | cons p r =>
      have hp := hpos p (List.mem_cons_self p r)
      simp only [sumCounts, List.map_cons, List.sum_cons]
      omega
  have hle := retained_sum_le a t
  refine ⟨_, countsM_eq_finalize a t hne, ?_, ?_⟩
  · simp only [finalize]
    split
    · next hcond =>
      simp only [List.map_append, List.sum_append, List.map_cons, List.map_nil,
        List.sum_cons, List.sum_nil, mapEntries_counts]
      omega
    · next hcond =>
      rw [mapEntries_counts]
      have h0 : ¬ 0 < sumCounts t - ((retainedPairs a t).map (·.2)).sum := by
        intro hlt
        exact hcond ⟨hlt, hother⟩
      omega
  · simp only [finalize]
    split
    · next hcond =>
      simp only [List.map_append, List.sum_append, List.map_cons, List.map_nil,
        List.sum_cons, List.sum_nil]
      ring
    · next hcond =>
      have h0 : ¬ 0 < sumCounts t - ((retainedPairs a t).map (·.2)).sum := by
        intro hlt
        exact hcond ⟨hlt, hother⟩
      have hsum : ((retainedPairs a t).map (·.2)).sum = sumCounts t := by omega
      rw [mapEntries_pct_sum, hsum, if_pos htot]
      have hc : (sumCounts t : ℚ) ≠ 0 := Nat.cast_ne_zero.mpr htot.ne'
      field_simp

/-- Witness for C3 amended: two singleton values under the defaults: the two
entries have counts summing to 2 and exact percentages summing to 100. -/
theorem percentage_closure_amended_witness :
    ∃ l, countsM defaultArgs tblTwoSingles = some l ∧
      (l.map Entry.count).sum = sumCounts tblTwoSingles ∧
      (l.map Entry.pct).sum = 100 :=
  percentage_closure_amended defaultArgs tblTwoSingles (by decide) (by decide) (by decide)

/-- Stripping trailing zeros preserves the denoted value. -/
theorem decValue_normAux (s : Nat) : ∀ m : Int,
    decValue (normAux m s) = (m : ℚ) / (10 : ℚ) ^ s := by
  induction s with
  | zero => intro m; simp [normAux, decValue]
  | succ s ih =>
    intro m
    by_cases h : m % 10 = 0
    · have hb : (m % 10 == 0) = true := beq_iff_eq.mpr h
      have hd : (10 : Int) ∣ m := Int.dvd_of_emod_eq_zero h
      obtain ⟨k, hk⟩ := hd
      have hq : m / 10 = k := by omega
      simp only [normAux, hb, if_true, hq]
      rw [ih k, hk]
      have hz : ((10 : ℚ) ^ s) ≠ 0 := pow_ne_zero _ (by norm_num)
      push_cast
      rw [pow_succ]
      field_simp
      ring
    · have hb : (m % 10 == 0) = false := by
        simp only [beq_eq_false_iff_ne, ne_eq]
        exact h
      simp [normAux, hb, decValue]

/-- Normalization preserves the denoted value. -/
theorem decValue_normalize (d : Dec) : decValue d.normalize = decValue d := by
  unfold Dec.normalize
  rw [decValue_normAux]
  rfl

/-- Stripping trailing zeros only lowers the scale. -/
theorem normAux_s_le (s : Nat) : ∀ m : Int, (normAux m s).s ≤ s := by
  induction s with
  | zero => intro m; simp [normAux]
  | succ s ih =>
    intro m
    by_cases h : (m % 10 == 0) = true
    · simp only [normAux, h, if_true]
      exact (ih (m / 10)).trans (Nat.le_succ s)
    · simp only [normAux, Bool.not_eq_true] at *
      simp [normAux, h]

/-- Normalization only lowers the scale. -/
theorem normalize_s_le (d : Dec) : d.normalize.s ≤ d.s := normAux_s_le d.s d.m

/-- Rounding at scale t yields a scale of at most t. -/
theorem roundDp_s_le (d : Dec) (t : Nat) : (d.roundDp t).s ≤ t := by
  unfold Dec.roundDp
  split
  · next h => exact h
  · exact le_refl t

/-- Rounding at a scale at least the current one is the identity. -/
theorem roundDp_eq_of_le (d : Dec) (t : Nat) (h : d.s ≤ t) : d.roundDp t = d := by
  unfold Dec.roundDp
  rw [if_pos h]

/-- The final re-rounding step of format_percentage always leaves at most
absDec fractional digits, whatever decimal reaches it. -/
theorem format_tail_s_le (absDec : Nat) (f : Dec) :
    (if absDec < fractLen f then (f.roundDp absDec).normalize else f).s ≤ absDec := by
  split
  · exact (normalize_s_le _).trans (roundDp_s_le _ _)
  · next h =>
    by_cases hs : f.s = 0
    · omega
    · simp only [fractLen, hs, if_false] at h
      omega

/-- C7: format_percentage (a) with a negative pct-dec-places flag produces a
decimal whose printed fractional part has at most the absolute flag value many
digits, and (b) with a nonnegative flag its value is exactly the input rounded
half-away-from-zero (via roundHalfAway inside Dec.roundDp) at that many
places. -/
theorem format_percentage_spec (p : Int) (d : Dec) :
    (p < 0 → (format_percentage p d).s ≤ p.natAbs) ∧
    (0 ≤ p → decValue (format_percentage p d) = decValue (d.roundDp p.natAbs)) := by
  constructor
  · intro _
    simp only [format_percentage]
    exact format_tail_s_le _ _
  · intro hp
    have hnp : ¬ p < 0 := not_lt.mpr hp
    simp only [format_percentage, if_neg hnp]
    split
    · next h =>
      rw [decValue_normalize, roundDp_eq_of_le _ _
        ((normalize_s_le _).trans (roundDp_s_le _ _))]
      exact decValue_normalize _
    · next h => exact decValue_normalize _

/-- Witness for C7: the scenario-D value 33.333333333333336 (the Decimal
obtained from the f64 nearest 100/3) at -5 formats to 33.33333, with at most 5
fractional digits; 5.05 at +2 keeps its exact value. -/
theorem format_percentage_spec_witness :
    (format_percentage (-5) ⟨33333333333333336, 15⟩).s ≤ (-5 : Int).natAbs ∧
    decValue (format_percentage 2 ⟨505, 2⟩) =
      decValue (Dec.roundDp ⟨505, 2⟩ (2 : Int).natAbs) ∧
    format_percentage (-5) ⟨33333333333333336, 15⟩ = ⟨3333333, 5⟩ :=
  ⟨(format_percentage_spec (-5) ⟨33333333333333336, 15⟩).1 (by decide),
   (format_percentage_spec 2 ⟨505, 2⟩).2 (by decide),
   by decide⟩

/-- Lowercasing keeps ASCII bytes ASCII. -/
theorem lowerByte_le (b : Nat) (h : b ≤ 127) : lowerByte b ≤ 127 := by
  unfold lowerByte
  split <;> omega

/-- Lowercasing fixes every non-ASCII byte. -/
theorem lowerByte_high (b : Nat) (h : 128 ≤ b) : lowerByte b = b := by
  unfold lowerByte
  split
  · omega
  · rfl

/-- Bytewise lowercasing is idempotent. -/
theorem lowerByte_idem (b : Nat) : lowerByte (lowerByte b) = lowerByte b := by
  by_cases h : 65 ≤ b ∧ b ≤ 90
  · have h1 : lowerByte b = b + 32 := by simp [lowerByte, h]
    rw [h1]
    show (if 65 ≤ b + 32 ∧ b + 32 ≤ 90 then b + 32 + 32 else b + 32) = b + 32
    rw [if_neg (by omega)]
  · have h1 : lowerByte b = b := by simp [lowerByte, h]
    rw [h1, h1]

/-- Lowercasing a field twice is lowercasing it once. -/
theorem lowerBytes_idem (x : ByteStr) : lowerBytes (lowerBytes x) = lowerBytes x := by
  unfold lowerBytes
  rw [List.map_map]
  exact List.map_congr_left (fun a _ => lowerByte_idem a)

/-- Lowercasing neither creates nor destroys ASCII whitespace. -/
theorem isWsByte_lowerByte (b : Nat) : isWsByte (lowerByte b) = isWsByte b := by
  by_cases h : 65 ≤ b ∧ b ≤ 90
  · have h1 : lowerByte b = b + 32 := by simp [lowerByte, h]
    rw [h1, Bool.eq_iff_iff]
    simp only [isWsByte, Bool.or_eq_true, beq_iff_eq]
    omega
  · have h1 : lowerByte b = b := by simp [lowerByte, h]
    rw [h1]

/-- Whitespace bytes are ASCII. -/
theorem isWsByte_le (b : Nat) (h : isWsByte b = true) : b ≤ 127 := by
  simp only [isWsByte, Bool.or_eq_true, beq_iff_eq] at h
  omega

/-- The acceptor preserves the reachability invariant. -/
theorem goodState_step (s : Utf8State) (b : Nat) (h : goodState s) :
    goodState (utf8Step s b) := by
  cases s with
  | reject => exact trivial
  | start =>
    simp only [utf8Step]
    repeat' split
    all_goals simp [goodState]
  | cont lo hi k =>
    simp only [utf8Step]
    repeat' split
    all_goals simp [goodState]

/-- Every state the acceptor reaches from a good state is good. -/
theorem goodState_foldl (l : List Nat) : ∀ s : Utf8State, goodState s →
    goodState (l.foldl utf8Step s) := by
  induction l with
  | nil => intro s hs; exact hs
  | cons b r ih =>
    intro s hs
    exact ih _ (goodState_step s b hs)

/-- An ASCII byte keeps the acceptor at a character boundary. -/
theorem utf8Step_start_low (b : Nat) (hb : b ≤ 127) :
    utf8Step Utf8State.start b = Utf8State.start := by
  simp [utf8Step, hb]

/-- An ASCII byte in the middle of a multi-byte sequence rejects. -/
theorem utf8Step_cont_low (lo hi k b : Nat) (hb : b ≤ 127) (hlo : 128 ≤ lo) :
    utf8Step (Utf8State.cont lo hi k) b = Utf8State.reject := by
  simp only [utf8Step]
  rw [if_neg (by omega)]

/-- The reject sink is absorbing. -/
theorem foldl_reject (l : List Nat) :
    l.foldl utf8Step Utf8State.reject = Utf8State.reject := by
  induction l with
  | nil => rfl
  | cons b r ih => exact ih

/-- Validity unfolds to the acceptor ending at a boundary. -/
theorem utf8Valid_iff (l : List Nat) :
    utf8Valid l = true ↔ l.foldl utf8Step Utf8State.start = Utf8State.start := by
  simp [utf8Valid]

/-- Concatenating two valid byte strings is valid. -/
theorem utf8Valid_append (a b : List Nat) (ha : utf8Valid a = true)
    (hb : utf8Valid b = true) : utf8Valid (a ++ b) = true := by
  rw [utf8Valid_iff] at *
  rw [List.foldl_append, ha]
  exact hb

/-- Dropping an all-ASCII suffix preserves validity (if the remainder ended
inside a multi-byte sequence or in the sink, the ASCII suffix could never bring
the acceptor back to a boundary). -/
theorem utf8Valid_drop_ascii_suffix (B W : List Nat) (hW : ∀ c ∈ W, c ≤ 127)
    (h : utf8Valid (B ++ W) = true) : utf8Valid B = true := by
  rw [utf8Valid_iff] at *
  rw [List.foldl_append] at h
  cases hs : B.foldl utf8Step Utf8State.start with
  | start => rfl
  | reject =>
    rw [hs, foldl_reject] at h
    exact absurd h (by simp)
  | cont lo hi k =>
    have hg : goodState (B.foldl utf8Step Utf8State.start) :=
      goodState_foldl B _ trivial
    rw [hs] at hg h
    cases W with
    | nil => exact absurd h (by simp)
    | cons c w =>
      simp only [List.foldl_cons] at h
      rw [utf8Step_cont_low lo hi k c (hW c (List.mem_cons_self c w)) hg,
        foldl_reject] at h
      exact absurd h (by simp)

/-- Prepending an ASCII byte does not change validity of the rest. -/
theorem utf8Valid_cons_low (b : Nat) (r : List Nat) (hb : b ≤ 127) :
    utf8Valid (b :: r) = utf8Valid r := by
  simp only [utf8Valid, List.foldl_cons, utf8Step_start_low b hb]

/-- Any all-ASCII byte string is valid. -/
theorem utf8Valid_all_low (l : List Nat) (h : ∀ x ∈ l, x ≤ 127) :
    utf8Valid l = true := by
  induction l with
  | nil => rfl
  | cons b r ih =>
    rw [utf8Valid_cons_low b r (h b (List.mem_cons_self b r))]
    exact ih (fun x hx => h x (List.mem_cons_of_mem b hx))

/-- Lowercasing commutes with each acceptor step from a good state. -/
theorem utf8Step_lower (s : Utf8State) (b : Nat) (hg : goodState s) :
    utf8Step s (lowerByte b) = utf8Step s b := by
  by_cases hb : b ≤ 127
  · cases s with
    | reject => rfl
    | start => rw [utf8Step_start_low _ (lowerByte_le b hb), utf8Step_start_low b hb]
    | cont lo hi k =>
      rw [utf8Step_cont_low _ _ _ _ (lowerByte_le b hb) hg,
        utf8Step_cont_low _ _ _ _ hb hg]
  · rw [lowerByte_high b (by omega)]

/-- From a good state the acceptor cannot tell a field from its lowercased
form. -/
theorem foldl_lower (l : List Nat) : ∀ s : Utf8State, goodState s →
    (l.map lowerByte).foldl utf8Step s = l.foldl utf8Step s := by
  induction l with
  | nil => intro s _; rfl
  | cons b r ih =>
    intro s hs
    simp only [List.map_cons, List.foldl_cons]
    rw [utf8Step_lower s b hs]
    exact ih _ (goodState_step s b hs)

/-- Lowercasing preserves UTF-8 validity exactly. -/
theorem utf8Valid_lowerBytes (l : ByteStr) : utf8Valid (lowerBytes l) = utf8Valid l := by
  have h := foldl_lower l Utf8State.start trivial
  simp only [utf8Valid, lowerBytes, h]

/-- Dropping an already dropped prefix changes nothing. -/
theorem dropWhile_dropWhile {α} (p : α → Bool) (l : List α) :
    List.dropWhile p (List.dropWhile p l) = List.dropWhile p l := by
  induction l with
  | nil => rfl
  | cons a r ih =>
    by_cases h : p a
    · simp [List.dropWhile_cons, h, ih]
    · simp [List.dropWhile_cons, h]

/-- The head surviving dropWhile fails the predicate. -/
theorem head_dropWhile_false {α} (p : α → Bool) (l : List α) (a : α)
    (h : (List.dropWhile p l).head? = some a) : p a = false := by
  have hh := List.head?_dropWhile_not p l
  rw [h] at hh
  exact hh

/-- dropWhile is the identity when the head already fails the predicate. -/
theorem dropWhile_eq_self_of_head {α} (p : α → Bool) (l : List α)
    (h : ∀ a, l.head? = some a → p a = false) : List.dropWhile p l = l := by
  cases l with
  | nil => rfl
  | cons a r =>
    rw [List.dropWhile_cons, if_neg]
    simp [h a rfl]

/-- The head of a list survives appending on the right. -/
theorem head?_append_of_some {α} (l l' : List α) {a : α} (h : l.head? = some a) :
    (l ++ l').head? = some a := by
  cases l with
  | nil => exact absurd h (by simp)
  | cons b t => exact h

/-- Splitting a list at its trailing run of predicate-true elements. -/
theorem rdrop_decomposition {α} (p : α → Bool) (A : List α) :
    A = (A.reverse.dropWhile p).reverse ++ (A.reverse.takeWhile p).reverse := by
  conv_lhs => rw [← List.reverse_reverse A,
    ← List.takeWhile_append_dropWhile p A.reverse]
  rw [List.reverse_append]

/-- trim_bs_whitespace is idempotent. -/
theorem trim_bs_idem (x : ByteStr) :
    trim_bs_whitespace (trim_bs_whitespace x) = trim_bs_whitespace x := by
  unfold trim_bs_whitespace
  have hstep1 : List.dropWhile isWsByte
      (((x.dropWhile isWsByte).reverse.dropWhile isWsByte).reverse) =
      ((x.dropWhile isWsByte).reverse.dropWhile isWsByte).reverse := by
    apply dropWhile_eq_self_of_head
    intro a ha
    have hAhead : (x.dropWhile isWsByte).head? = some a := by
      rw [rdrop_decomposition isWsByte (x.dropWhile isWsByte)]
      exact head?_append_of_some _ _ ha
    exact head_dropWhile_false isWsByte x a hAhead
  rw [hstep1, List.reverse_reverse, dropWhile_dropWhile]

/-- Lowercasing commutes with dropping leading whitespace. -/
theorem dropWhile_ws_lower (y : List Nat) :
    List.dropWhile isWsByte (y.map lowerByte) =
      (List.dropWhile isWsByte y).map lowerByte := by
  rw [List.dropWhile_map]
  rw [show (isWsByte ∘ lowerByte) = isWsByte from funext isWsByte_lowerByte]

/-- Lowercasing commutes with trimming. -/
theorem trim_lowerBytes (y : ByteStr) :
    trim_bs_whitespace (lowerBytes y) = lowerBytes (trim_bs_whitespace y) := by
  unfold trim_bs_whitespace lowerBytes
  rw [dropWhile_ws_lower, ← List.map_reverse, dropWhile_ws_lower, ← List.map_reverse]

/-- Dropping leading whitespace preserves validity. -/
theorem utf8Valid_dropWhile_ws (x : ByteStr) (h : utf8Valid x = true) :
    utf8Valid (x.dropWhile isWsByte) = true := by
  induction x with
  | nil => exact h
  | cons a r ih =>
    rw [List.dropWhile_cons]
    split
    · next hpa =>
      rw [utf8Valid_cons_low a r (isWsByte_le a hpa)] at h
      exact ih h
    · exact h

/-- Trimming preserves validity. -/
theorem utf8Valid_trim (x : ByteStr) (h : utf8Valid x = true) :
    utf8Valid (trim_bs_whitespace x) = true := by
  have hA : utf8Valid (x.dropWhile isWsByte) = true := utf8Valid_dropWhile_ws x h
  refine utf8Valid_drop_ascii_suffix (trim_bs_whitespace x)
    (((x.dropWhile isWsByte).reverse.takeWhile isWsByte).reverse) ?_ ?_
  · intro c hc
    rw [List.mem_reverse] at hc
    exact isWsByte_le c (List.mem_takeWhile_imp hc)
  · show utf8Valid (((x.dropWhile isWsByte).reverse.dropWhile isWsByte).reverse ++
      ((x.dropWhile isWsByte).reverse.takeWhile isWsByte).reverse) = true
    rw [← rdrop_decomposition isWsByte (x.dropWhile isWsByte)]
    exact hA

/-- An invalid byte string stays invalid after trimming: validity of the
trimmed middle would imply validity of the whole. -/
theorem utf8Valid_of_trim (x : ByteStr) (h : utf8Valid (trim_bs_whitespace x) = true) :
    utf8Valid x = true := by
  have hAvalid : utf8Valid (x.dropWhile isWsByte) = true := by
    rw [rdrop_decomposition isWsByte (x.dropWhile isWsByte)]
    refine utf8Valid_append _ _ h ?_
    refine utf8Valid_all_low _ ?_
    intro c hc
    rw [List.mem_reverse] at hc
    exact isWsByte_le c (List.mem_takeWhile_imp hc)
  conv_lhs => rw [← List.takeWhile_append_dropWhile isWsByte x]
  refine utf8Valid_append _ _ ?_ hAvalid
  refine utf8Valid_all_low _ ?_
  intro c hc
  exact isWsByte_le c (List.mem_takeWhile_imp hc)

/-- C9: each of the four per-field normalizations selected from the no-trim and
ignore-case flags is idempotent: applying it twice to any byte sequence yields
the same bytes as applying it once. -/
theorem process_field_idempotent (ic nt : Bool) (x : ByteStr) :
    process_field ic nt (process_field ic nt x) = process_field ic nt x := by
  cases ic with
  | false =>
    cases nt with
    | false => exact trim_bs_idem x
    | true => rfl
  | true =>
    cases nt with
    | true =>
      have hpf : ∀ y : ByteStr, process_field true true y =
          if utf8Valid y then lowerBytes y else y := fun y => rfl
      rw [hpf, hpf]
      by_cases hv : utf8Valid x = true
      · rw [if_pos hv]
        rw [if_pos ((utf8Valid_lowerBytes x).trans hv)]
        exact lowerBytes_idem x
      · rw [if_neg hv, if_neg hv]
    | false =>
      have hpf : ∀ y : ByteStr, process_field true false y =
          if utf8Valid y then lowerBytes (trim_bs_whitespace y)
          else trim_bs_whitespace y := fun y => rfl
      rw [hpf, hpf]
      by_cases hv : utf8Valid x = true
      · rw [if_pos hv]
        have h2 : utf8Valid (lowerBytes (trim_bs_whitespace x)) = true := by
          rw [utf8Valid_lowerBytes]
          exact utf8Valid_trim x hv
        rw [if_pos h2, trim_lowerBytes, trim_bs_idem, lowerBytes_idem]
      · rw [if_neg hv]
        have h3 : ¬ utf8Valid (trim_bs_whitespace x) = true :=
          fun hc => hv (utf8Valid_of_trim x hc)
        rw [if_neg h3, trim_bs_idem]

end Freq
